import Mathlib

/-!
Shallow embedding of `neurobooth_analysis_tools/preprocess/gaze/norm.py`.

Numeric model: a floating-point entry of a gaze series is either a finite
number or the NaN sentinel.  We model an entry as `Option ℚ` (for the purely
rational transforms `normalize_px_to_screen` and `normalize_max_value`) or
`Option ℝ` (for the arctangent-based transforms `pixel_to_dva` and
`normalize_dva_to_screen`), with `none` playing the role of NaN: every
numpy arithmetic operation propagates NaN, which the `vmap`/`vmap2` lifts
reproduce.  A gaze series of shape (N x 2) is a list of N pairs
(column 0 = X, column 1 = Y).  Fallible numpy operations (zero-size
reductions, broadcast mismatches) are modelled by an `Option` result, with
`none` standing for a raised exception.

Broadcast scope: the embedding models the two distance forms the code is
used with (a scalar, or a per-sample array whose length matches the series);
other numpy broadcast shapes (for example a length-1 array against a longer
series) are outside the scope of the verified claims and are mapped to the
error result.
-/

namespace GazeNorm

/-- Screen geometry descriptor (source: `ScreenProperties` NamedTuple in
`norm.py`): width and height in pixels, pixel density in pixels per inch. -/
structure ScreenProperties where
  width_px : ℤ
  height_px : ℤ
  px_per_inch : ℚ
deriving DecidableEq

/-- Lift of a unary arithmetic operation to NaN-aware values: NaN in, NaN out. -/
def vmap {α : Type} (f : α → α) : Option α → Option α
  | none => none
  | some a => some (f a)

/-- Lift of a binary arithmetic operation to NaN-aware values: if either
operand is NaN, the result is NaN. -/
def vmap2 {α : Type} (f : α → α → α) : Option α → Option α → Option α
  | some a, some b => some (f a b)
  | _, _ => none

/-- NaN-aware division (numpy `/` on one element). -/
def vdiv {α : Type} [Div α] (a b : Option α) : Option α := vmap2 (fun x y => x / y) a b

/-- NaN-aware absolute value (numpy `np.abs` on one element). -/
def vabs (a : Option ℚ) : Option ℚ := vmap (fun x => |x|) a

/-- NaN-aware binary maximum (numpy `np.maximum`, the reduction step of
`np.max`): NaN propagates. -/
def vmax (a b : Option ℚ) : Option ℚ := vmap2 max a b

/-- NaN-aware binary minimum (numpy `np.minimum`, the reduction step of
`np.min`): NaN propagates. -/
def vmin (a b : Option ℚ) : Option ℚ := vmap2 min a b

/-- NaN-aware subtraction. -/
def vsub (a b : Option ℚ) : Option ℚ := vmap2 (fun x y => x - y) a b

/-- A gaze position time series of shape (N x 2): N samples, each a pair of
NaN-aware values (column 0 = X, column 1 = Y). -/
abbrev Series (α : Type) := List (Option α × Option α)

/-- Row-major flattening of a series into its 2N entries, the element order
a numpy reduction over the whole array visits. -/
def entries {α : Type} (g : Series α) : List (Option α) :=
  g.foldr (fun p acc => p.1 :: p.2 :: acc) []

/-- Elementwise update of column 0 (an `arr[:, 0] = f(arr[:, 0])` statement). -/
def mapCol0 {α : Type} (f : α → α) (g : Series α) : Series α :=
  g.map fun p => (vmap f p.1, p.2)

/-- Elementwise update of column 1 (an `arr[:, 1] = f(arr[:, 1])` statement). -/
def mapCol1 {α : Type} (f : α → α) (g : Series α) : Series α :=
  g.map fun p => (p.1, vmap f p.2)

/-- Elementwise update of the whole array (an `arr = f(arr)` whole-array
numpy operation). -/
def mapBoth {α : Type} (f : α → α) (g : Series α) : Series α :=
  g.map fun p => (vmap f p.1, vmap f p.2)

/-- Embedding of `normalize_px_to_screen` (norm.py lines 11-29): center the
series at the screen center (subtract `width_px / 2` from column 0 and
`height_px / 2` from column 1), then divide everything by
`max(width_px, height_px) / 2`. -/
def normalize_px_to_screen (gaze_pos : Series ℚ) (screen : ScreenProperties) : Series ℚ :=
  let g1 := mapCol0 (fun x => x - (screen.width_px : ℚ) / 2) gaze_pos
  let g2 := mapCol1 (fun y => y - (screen.height_px : ℚ) / 2) g1
  let norm_factor : ℚ := ((max screen.width_px screen.height_px : ℤ) : ℚ) / 2
  mapBoth (fun v => v / norm_factor) g2

/-- Embedding of numpy `np.max` over a flat list of entries: a left fold of
the NaN-propagating binary maximum; the reduction of a zero-size array
raises, modelled by `none`. -/
def npMax (l : List (Option ℚ)) : Option (Option ℚ) :=
  match l with
  | [] => none
  | x :: xs => some (xs.foldl vmax x)

/-- Embedding of numpy `np.min` over a flat list of entries. -/
def npMin (l : List (Option ℚ)) : Option (Option ℚ) :=
  match l with
  | [] => none
  | x :: xs => some (xs.foldl vmin x)

/-- Embedding of the Python builtin `max(norm_factor, 1)` (norm.py line 39):
Python keeps the first argument unless the second compares strictly greater,
so a NaN first argument is kept (every comparison against NaN is false). -/
def pyMaxOne (a : Option ℚ) : Option ℚ :=
  match a with
  | none => none
  | some x => some (max x 1)

/-- Embedding of `normalize_max_value` (norm.py lines 32-40): compute
`np.max(np.abs(gaze_pos))` (an exception on an empty series, modelled by
`none`), clamp the divisor below by 1 via the Python builtin `max`, and
divide the whole series by it. -/
def normalize_max_value (gaze_pos : Series ℚ) : Option (Series ℚ) :=
  match npMax ((entries gaze_pos).map vabs) with
  | none => none
  | some norm_factor0 =>
    let norm_factor := pyMaxOne norm_factor0
    some (gaze_pos.map fun p => (vdiv p.1 norm_factor, vdiv p.2 norm_factor))

/-- Column 0 of a series (for stating range properties). -/
def col0 {α : Type} (g : Series α) : List (Option α) := g.map Prod.fst

/-- Column 1 of a series (for stating range properties). -/
def col1 {α : Type} (g : Series α) : List (Option α) := g.map Prod.snd

/-- Output range of a column in the numpy sense: `np.max(c) - np.min(c)`;
`none` models the exception on an empty column, an inner `none` a NaN range. -/
def listRange (c : List (Option ℚ)) : Option (Option ℚ) :=
  match npMax c, npMin c with
  | some a, some b => some (vsub a b)
  | _, _ => none

/-- Decidable finiteness-and-bound check on one entry: the entry is a finite
value of absolute value at most `b`. -/
def isFiniteLe (b : ℚ) (v : Option ℚ) : Bool :=
  match v with
  | none => false
  | some a => decide (|a| ≤ b)

/-- Embedding of numpy `np.arctan2(y, x)` on finite reals: the angle of the
point `(x, y)`, in `(-pi, pi]`, computed from `Real.arctan` of the quotient
with the usual quadrant corrections. -/
noncomputable def arctan2 (y x : ℝ) : ℝ :=
  if 0 < x then Real.arctan (y / x)
  else if x < 0 then
    if 0 ≤ y then Real.arctan (y / x) + Real.pi else Real.arctan (y / x) - Real.pi
  else
    if 0 < y then Real.pi / 2
    else if y < 0 then -(Real.pi / 2)
    else 0

/-- Embedding of numpy `np.degrees`: radians to degrees. -/
noncomputable def degrees (x : ℝ) : ℝ := x * (180 / Real.pi)

/-- The distance argument `mm_to_target`: either one scalar for the whole
series or one value per sample. -/
inductive Dist (α : Type) where
  | scalar (d : Option α)
  | perSample (ds : List (Option α))

/-- Embedding of the statement `gaze_pos[:, 0] = np.arctan2(gaze_pos[:, 0],
mm_to_target)` (norm.py line 71): with a scalar distance the same value is
used for every sample; with a per-sample array the lengths must agree
(`none` models the broadcast exception). -/
noncomputable def arctanCol0 (g : Series ℝ) (mm_to_target : Dist ℝ) : Option (Series ℝ) :=
  match mm_to_target with
  | .scalar d => some (g.map fun p => (vmap2 arctan2 p.1 d, p.2))
  | .perSample ds =>
    if ds.length = g.length then
      some (List.zipWith (fun p d => (vmap2 arctan2 p.1 d, p.2)) g ds)
    else none

/-- Embedding of the statement `gaze_pos[:, 1] = np.arctan2(gaze_pos[:, 1],
mm_to_target)` (norm.py line 72). -/
noncomputable def arctanCol1 (g : Series ℝ) (mm_to_target : Dist ℝ) : Option (Series ℝ) :=
  match mm_to_target with
  | .scalar d => some (g.map fun p => (p.1, vmap2 arctan2 p.2 d))
  | .perSample ds =>
    if ds.length = g.length then
      some (List.zipWith (fun p d => (p.1, vmap2 arctan2 p.2 d)) g ds)
    else none

/-- Body of `pixel_to_dva` after the gaze center `c` has been determined
(norm.py lines 63-74): subtract the center per axis, convert pixels to
millimeters by multiplying with `25.4 / px_per_inch`, apply `arctan2`
against the distance per axis, and convert the whole array to degrees. -/
noncomputable def pixel_to_dva_core (gaze_pos : Series ℝ) (mm_to_target : Dist ℝ)
    (screen : ScreenProperties) (c : ℝ × ℝ) : Option (Series ℝ) :=
  let g1 := mapCol0 (fun x => x - c.1) gaze_pos
  let g2 := mapCol1 (fun y => y - c.2) g1
  let g3 := mapBoth (fun v => v * (25.4 / (screen.px_per_inch : ℝ))) g2
  match arctanCol0 g3 mm_to_target with
  | none => none
  | some g4 =>
    match arctanCol1 g4 mm_to_target with
    | none => none
    | some g5 => some (mapBoth degrees g5)

/-- Embedding of `pixel_to_dva` (norm.py lines 43-74): when no gaze center
is supplied it defaults to the screen center (norm.py lines 60-61). -/
noncomputable def pixel_to_dva (gaze_pos : Series ℝ) (mm_to_target : Dist ℝ)
    (screen : ScreenProperties) (gaze_center : Option (ℝ × ℝ)) : Option (Series ℝ) :=
  match gaze_center with
  | some c => pixel_to_dva_core gaze_pos mm_to_target screen c
  | none => pixel_to_dva_core gaze_pos mm_to_target screen
      ((screen.width_px : ℝ) / 2, (screen.height_px : ℝ) / 2)

/-- Embedding of `normalize_dva_to_screen` (norm.py lines 77-97): the
divisor is the angular extent of half the larger screen dimension; a scalar
distance gives one shared divisor, a per-sample distance a per-sample
column vector broadcast across both axes (lengths must agree; `none` models
the broadcast exception). -/
noncomputable def normalize_dva_to_screen (gaze_pos : Series ℝ) (mm_to_target : Dist ℝ)
    (screen : ScreenProperties) : Option (Series ℝ) :=
  let norm_factor_px : ℝ := ((max screen.width_px screen.height_px : ℤ) : ℝ) / 2
  let norm_factor_mm : ℝ := norm_factor_px * (25.4 / (screen.px_per_inch : ℝ))
  match mm_to_target with
  | .scalar d =>
    let norm_factor := vmap degrees (vmap2 arctan2 (some norm_factor_mm) d)
    some (gaze_pos.map fun p => (vdiv p.1 norm_factor, vdiv p.2 norm_factor))
  | .perSample ds =>
    let norm_factors := ds.map fun d => vmap degrees (vmap2 arctan2 (some norm_factor_mm) d)
    if ds.length = gaze_pos.length then
      some (List.zipWith (fun p nf => (vdiv p.1 nf, vdiv p.2 nf)) gaze_pos norm_factors)
    else none

/-- Claim-side per-entry formula for `pixel_to_dva`:
`degrees(arctan2((v - c) * 25.4 / px_per_inch, d))`. -/
noncomputable def dvaFormula (c ppi : ℝ) (v d : ℝ) : ℝ :=
  degrees (arctan2 ((v - c) * 25.4 / ppi) d)

/-- Transcription of claim C1 as a function, for a fixed reference point
`c`: apply `dvaFormula` to each sample and each axis independently. -/
noncomputable def claimPixelToDvaCore (gaze_pos : Series ℝ) (mm_to_target : Dist ℝ)
    (screen : ScreenProperties) (c : ℝ × ℝ) : Option (Series ℝ) :=
  match mm_to_target with
  | .scalar d => some (gaze_pos.map fun p =>
      (vmap2 (dvaFormula c.1 (screen.px_per_inch : ℝ)) p.1 d,
       vmap2 (dvaFormula c.2 (screen.px_per_inch : ℝ)) p.2 d))
  | .perSample ds =>
    if ds.length = gaze_pos.length then
      some (List.zipWith (fun p d =>
        (vmap2 (dvaFormula c.1 (screen.px_per_inch : ℝ)) p.1 d,
         vmap2 (dvaFormula c.2 (screen.px_per_inch : ℝ)) p.2 d)) gaze_pos ds)
    else none

/-- Transcription of claim C1 as a function: the reference point is the
caller-supplied gaze center, or the screen center when omitted. -/
noncomputable def claimPixelToDva (gaze_pos : Series ℝ) (mm_to_target : Dist ℝ)
    (screen : ScreenProperties) (gaze_center : Option (ℝ × ℝ)) : Option (Series ℝ) :=
  claimPixelToDvaCore gaze_pos mm_to_target screen
    (gaze_center.getD ((screen.width_px : ℝ) / 2, (screen.height_px : ℝ) / 2))

/-- Claim-side angular extent for `normalize_dva_to_screen`:
`degrees(arctan2((max(width, height) / 2) * 25.4 / px_per_inch, d))`. -/
noncomputable def extentFormula (screen : ScreenProperties) (d : ℝ) : ℝ :=
  degrees (arctan2 (((max screen.width_px screen.height_px : ℤ) : ℝ) / 2
    * 25.4 / (screen.px_per_inch : ℝ)) d)

/-- Transcription of claim C2 as a function: divide the series by the
angular extent of half the larger screen dimension, one shared divisor for
a scalar distance, a per-sample divisor applied to both axes of sample `i`
for an array distance. -/
noncomputable def claimNormalizeDva (gaze_pos : Series ℝ) (mm_to_target : Dist ℝ)
    (screen : ScreenProperties) : Option (Series ℝ) :=
  match mm_to_target with
  | .scalar d =>
    some (gaze_pos.map fun p =>
      (vdiv p.1 (vmap (extentFormula screen) d), vdiv p.2 (vmap (extentFormula screen) d)))
  | .perSample ds =>
    if ds.length = gaze_pos.length then
      some (List.zipWith (fun p d =>
        (vdiv p.1 (vmap (extentFormula screen) d), vdiv p.2 (vmap (extentFormula screen) d)))
        gaze_pos ds)
    else none

/-- Transcription of the claim C3 formula: sample `i` maps to
`((x - width/2) / (max(width, height)/2), (y - height/2) / (max(width, height)/2))`. -/
def claimNormalizePx (gaze_pos : Series ℚ) (screen : ScreenProperties) : Series ℚ :=
  gaze_pos.map fun p =>
    (vmap (fun x => (x - (screen.width_px : ℚ) / 2)
        / (((max screen.width_px screen.height_px : ℤ) : ℚ) / 2)) p.1,
     vmap (fun y => (y - (screen.height_px : ℚ) / 2)
        / (((max screen.width_px screen.height_px : ℤ) : ℚ) / 2)) p.2)

/-! ## Helper lemmas -/

lemma zipWith_zipWith_same {α β γ δ : Type} (f : γ → β → δ) (g : α → β → γ)
    (l : List α) (ds : List β) :
    List.zipWith f (List.zipWith g l ds) ds = List.zipWith (fun a b => f (g a b) b) l ds := by
  induction l generalizing ds with
  | nil => simp
  | cons a l ih => cases ds <;> simp [ih]

lemma zipWith_ext {α β γ : Type} (f g : α → β → γ) (h : ∀ a b, f a b = g a b)
    (l : List α) (ds : List β) : List.zipWith f l ds = List.zipWith g l ds := by
  have hfg : f = g := funext fun a => funext fun b => h a b
  rw [hfg]

lemma dva_elt (c ppi : ℝ) (x d : Option ℝ) :
    vmap degrees (vmap2 arctan2 (vmap (fun v => v * (25.4 / ppi)) (vmap (fun v => v - c) x)) d)
      = vmap2 (dvaFormula c ppi) x d := by
  cases x <;> cases d <;> simp [vmap, vmap2, dvaFormula, mul_div_assoc]

lemma extent_elt (screen : ScreenProperties) (d : Option ℝ) :
    vmap degrees (vmap2 arctan2
        (some (((max screen.width_px screen.height_px : ℤ) : ℝ) / 2
          * (25.4 / (screen.px_per_inch : ℝ)))) d)
      = vmap (extentFormula screen) d := by
  cases d <;> simp [vmap, vmap2, extentFormula, mul_div_assoc]

/-! ## Claim theorems -/

lemma pixel_to_dva_core_eq_claim (gaze_pos : Series ℝ) (mm_to_target : Dist ℝ)
    (screen : ScreenProperties) (c : ℝ × ℝ) :
    pixel_to_dva_core gaze_pos mm_to_target screen c
      = claimPixelToDvaCore gaze_pos mm_to_target screen c := by
  unfold pixel_to_dva_core claimPixelToDvaCore
  cases mm_to_target with
  | scalar d =>
    simp only [arctanCol0, arctanCol1, mapBoth, mapCol0, mapCol1, List.map_map]
    refine congrArg some (List.map_congr_left fun p _ => ?_)
    obtain ⟨x, y⟩ := p
    simp only [Function.comp]
    exact Prod.ext (dva_elt _ _ _ _) (dva_elt _ _ _ _)
  | perSample ds =>
    simp only [arctanCol0, arctanCol1, mapBoth, mapCol0, mapCol1, List.map_map,
      List.length_map, List.length_zipWith]
    by_cases h : ds.length = gaze_pos.length
    · simp only [h, min_self, if_true, zipWith_zipWith_same, List.zipWith_map_left,
        List.map_zipWith, List.length_zipWith, List.length_map]
      refine congrArg some (zipWith_ext _ _ (fun p d => ?_) _ _)
      obtain ⟨x, y⟩ := p
      simp only [Function.comp]
      exact Prod.ext (dva_elt _ _ _ _) (dva_elt _ _ _ _)
    · simp [h]

lemma pixel_to_dva_eq_claim (gaze_pos : Series ℝ) (mm_to_target : Dist ℝ)
    (screen : ScreenProperties) (gaze_center : Option (ℝ × ℝ)) :
    pixel_to_dva gaze_pos mm_to_target screen gaze_center
      = claimPixelToDva gaze_pos mm_to_target screen gaze_center := by
  cases gaze_center with
  | none => exact pixel_to_dva_core_eq_claim _ _ _ _
  | some c => exact pixel_to_dva_core_eq_claim _ _ _ _

/-- C1: for every (N x 2) pixel series, screen descriptor and distance
(scalar or length-N per-sample array), `pixel_to_dva` computes, for each
sample and axis independently, `degrees(arctan2((p - c) * 25.4 / px_per_inch, d))`
where `c` is the supplied gaze center, defaulting to
`(width_px / 2, height_px / 2)` when omitted. -/
theorem pixel_to_dva_matches_claim_formula (gaze_pos : Series ℝ) (mm_to_target : Dist ℝ)
    (screen : ScreenProperties) (gaze_center : Option (ℝ × ℝ)) :
    pixel_to_dva gaze_pos mm_to_target screen gaze_center
      = claimPixelToDva gaze_pos mm_to_target screen gaze_center :=
  pixel_to_dva_eq_claim gaze_pos mm_to_target screen gaze_center

lemma normalize_dva_eq_claim (gaze_pos : Series ℝ) (mm_to_target : Dist ℝ)
    (screen : ScreenProperties) :
    normalize_dva_to_screen gaze_pos mm_to_target screen
      = claimNormalizeDva gaze_pos mm_to_target screen := by
  unfold normalize_dva_to_screen claimNormalizeDva
  cases mm_to_target with
  | scalar d => simp only [extent_elt]
  | perSample ds => simp only [List.zipWith_map_right, extent_elt]

/-- C2: `normalize_dva_to_screen` divides its input by the angular extent
`degrees(arctan2((max(width, height)/2) * 25.4 / px_per_inch, d))`; a scalar
distance gives one shared divisor for all samples and both axes, a length-N
distance array gives a per-sample divisor applied to both axes of sample i. -/
theorem normalize_dva_matches_claim_extent (gaze_pos : Series ℝ) (mm_to_target : Dist ℝ)
    (screen : ScreenProperties) :
    normalize_dva_to_screen gaze_pos mm_to_target screen
      = claimNormalizeDva gaze_pos mm_to_target screen :=
  normalize_dva_eq_claim gaze_pos mm_to_target screen

/-- C3: `normalize_px_to_screen` maps sample i to
`((x - width/2) / (max(width, height)/2), (y - height/2) / (max(width, height)/2))`;
in particular on a 1920 x 1080 screen the position (1920, 540) maps to (1, 0). -/
theorem normalize_px_matches_claim_formula :
    (∀ (gaze_pos : Series ℚ) (screen : ScreenProperties),
      normalize_px_to_screen gaze_pos screen = claimNormalizePx gaze_pos screen)
    ∧ normalize_px_to_screen [(some 1920, some 540)] ⟨1920, 1080, 90⟩ = [(some 1, some 0)] := by
  constructor
  · intro g s
    unfold normalize_px_to_screen claimNormalizePx
    simp only [mapCol0, mapCol1, mapBoth, List.map_map]
    refine List.map_congr_left fun p _ => ?_
    obtain ⟨x, y⟩ := p
    simp only [Function.comp]
    cases x <;> cases y <;> simp [vmap]
  · norm_num [normalize_px_to_screen, mapCol0, mapCol1, mapBoth, vmap]

/-! ## NaN propagation through the numpy max reduction -/

lemma vdiv_none {α : Type} [Div α] (x : Option α) : vdiv x none = none := by
  cases x <;> rfl

lemma foldl_vmax_none (xs : List (Option ℚ)) (x : Option ℚ) (h : x = none ∨ none ∈ xs) :
    xs.foldl vmax x = none := by
  induction xs generalizing x with
  | nil => simpa using h
  | cons y ys ih =>
    refine ih (vmax x y) ?_
    rcases h with h | h
    · subst h
      exact Or.inl rfl
    · rcases List.mem_cons.mp h with h | h
      · subst h
        left
        cases x <;> rfl
      · exact Or.inr h

lemma npMax_of_mem_none {l : List (Option ℚ)} (h : none ∈ l) : npMax l = some none := by
  cases l with
  | nil => simp at h
  | cons x xs =>
    have : xs.foldl vmax x = none := by
      refine foldl_vmax_none xs x ?_
      rcases List.mem_cons.mp h with h | h
      · exact Or.inl h.symm
      · exact Or.inr h
    simp [npMax, this]

lemma fst_mem_entries {α : Type} {g : Series α} {p : Option α × Option α} (h : p ∈ g) :
    p.1 ∈ entries g := by
  induction g with
  | nil => simp at h
  | cons q rest ih =>
    rcases List.mem_cons.mp h with h | h
    · subst h
      exact List.mem_cons_self _ _
    · exact List.mem_cons_of_mem _ (List.mem_cons_of_mem _ (ih h))

lemma snd_mem_entries {α : Type} {g : Series α} {p : Option α × Option α} (h : p ∈ g) :
    p.2 ∈ entries g := by
  induction g with
  | nil => simp at h
  | cons q rest ih =>
    rcases List.mem_cons.mp h with h | h
    · subst h
      exact List.mem_cons_of_mem _ (List.mem_cons_self _ _)
    · exact List.mem_cons_of_mem _ (List.mem_cons_of_mem _ (ih h))

lemma entries_map {α : Type} (f : Option α → Option α) (g : Series α) :
    entries (g.map fun p => (f p.1, f p.2)) = (entries g).map f := by
  induction g with
  | nil => rfl
  | cons q rest ih => simp [entries] at ih ⊢; simp [ih]

lemma normalize_max_value_all_nan {gaze_pos : Series ℚ} (h : none ∈ entries gaze_pos) :
    normalize_max_value gaze_pos = some (gaze_pos.map fun _ => (none, none)) := by
  have hm : none ∈ (entries gaze_pos).map vabs := by
    refine List.mem_map.mpr ⟨none, h, rfl⟩
  unfold normalize_max_value
  rw [npMax_of_mem_none hm]
  simp only [pyMaxOne]
  refine congrArg some (List.map_congr_left fun p _ => ?_)
  rw [vdiv_none, vdiv_none]

/-- C4 fails on the code: `normalize_max_value` computes its divisor with
`np.max`, which propagates NaN (it is not the NaN-aware `np.nanmax`), so on
the input [[2, -3], [NaN, 1]] the divisor is NaN and every output entry is
NaN; the output is not [[2/3, -1], [NaN, 1/3]] as the claim requires. -/
theorem normalize_max_value_nan_scenario_cex :
    normalize_max_value [(some 2, some (-3)), (none, some 1)]
      = some [(none, none), (none, none)]
    ∧ normalize_max_value [(some 2, some (-3)), (none, some 1)]
      ≠ some [(some (2 / 3), some (-1)), (none, some (1 / 3))] := by
  constructor
  · rfl
  · decide

/-- C4 amended: `normalize_max_value` computes its divisor with a
NaN-propagating maximum: if the series contains any NaN entry, the divisor
is NaN and every entry of the output is NaN; for a series whose entry-wise
absolute maximum is the finite value M with M > 1, the output is the input
divided by M. -/
theorem normalize_max_value_nan_propagating_max (gaze_pos : Series ℚ) :
    (none ∈ entries gaze_pos →
      normalize_max_value gaze_pos = some (gaze_pos.map fun _ => (none, none)))
    ∧ (∀ M : ℚ, npMax ((entries gaze_pos).map vabs) = some (some M) → 1 < M →
        normalize_max_value gaze_pos
          = some (gaze_pos.map fun p => (vdiv p.1 (some M), vdiv p.2 (some M)))) := by
  constructor
  · exact normalize_max_value_all_nan
  · intro M hM h1M
    unfold normalize_max_value
    rw [hM]
    simp only [pyMaxOne, max_eq_left h1M.le]

/-- Witness for the amended C4 at the two inputs
[[2, -3], [NaN, 1]] and [[2, -3], [0, 1]]. -/
theorem normalize_max_value_nan_propagating_max_witness :
    normalize_max_value [(some 2, some (-3)), (none, some 1)]
      = some [(none, none), (none, none)]
    ∧ normalize_max_value [(some 2, some (-3)), (some 0, some 1)]
      = some ([(some 2, some (-3)), (some 0, some 1)].map fun p =>
          (vdiv p.1 (some 3), vdiv p.2 (some 3))) :=
  ⟨(normalize_max_value_nan_propagating_max _).1 (by decide),
   (normalize_max_value_nan_propagating_max _).2 3
     (by norm_num [npMax, entries, vabs, vmax, vmap, vmap2, max_def, abs])
     (by norm_num)⟩


/-! ## The numpy max reduction on NaN-free lists -/

lemma foldl_vmax_finite (xs : List (Option ℚ)) (x : ℚ)
    (h : ∀ v ∈ xs, v ≠ none) :
    ∃ m : ℚ, xs.foldl vmax (some x) = some m ∧ (m = x ∨ some m ∈ xs) ∧ x ≤ m
      ∧ ∀ v ∈ xs, ∀ a : ℚ, v = some a → a ≤ m := by
  induction xs generalizing x with
  | nil => exact ⟨x, rfl, Or.inl rfl, le_refl x, by simp⟩
  | cons y ys ih =>
    obtain ⟨b, rfl⟩ : ∃ b, y = some b := by
      cases y with
      | none => exact absurd rfl (h none (List.mem_cons_self _ _))
      | some b => exact ⟨b, rfl⟩
    obtain ⟨m, hm, hmem, hxle, hbound⟩ := ih (max x b) (fun v hv => h v (List.mem_cons_of_mem _ hv))
    have hstep : (some b :: ys).foldl vmax (some x) = ys.foldl vmax (some (max x b)) := rfl
    refine ⟨m, hstep.trans hm, ?_, le_trans (le_max_left x b) hxle, ?_⟩
    · rcases hmem with hmem | hmem
      · rcases max_choice x b with h1 | h1
        · exact Or.inl (hmem.trans h1)
        · exact Or.inr (by rw [hmem, h1]; exact List.mem_cons_self _ _)
      · exact Or.inr (List.mem_cons_of_mem _ hmem)
    · intro v hv a hva
      rcases List.mem_cons.mp hv with hv | hv
      · rw [hv] at hva
        have : a = b := by injection hva.symm
        subst this
        exact le_trans (le_max_right x a) hxle
      · exact hbound v hv a hva

lemma npMax_finite (l : List (Option ℚ)) (hne : l ≠ [])
    (hfin : ∀ v ∈ l, v ≠ none) :
    ∃ m : ℚ, npMax l = some (some m) ∧ some m ∈ l
      ∧ ∀ v ∈ l, ∀ a : ℚ, v = some a → a ≤ m := by
  cases l with
  | nil => exact absurd rfl hne
  | cons z zs =>
    obtain ⟨x, rfl⟩ : ∃ x, z = some x := by
      cases z with
      | none => exact absurd rfl (hfin none (List.mem_cons_self _ _))
      | some x => exact ⟨x, rfl⟩
    obtain ⟨m, hm, hmem, hxle, hbound⟩ :=
      foldl_vmax_finite zs x (fun v hv => hfin v (List.mem_cons_of_mem _ hv))
    refine ⟨m, by simp [npMax, hm], ?_, ?_⟩
    · rcases hmem with hmem | hmem
      · exact hmem ▸ List.mem_cons_self _ _
      · exact List.mem_cons_of_mem _ hmem
    · intro v hv a hva
      rcases List.mem_cons.mp hv with hv | hv
      · rw [hv] at hva
        have : a = x := by injection hva.symm
        subst this
        exact hxle
      · exact hbound v hv a hva

lemma entries_ne_nil {α : Type} {g : Series α} (h : g ≠ []) : entries g ≠ [] := by
  cases g with
  | nil => exact absurd rfl h
  | cons p rest => simp [entries]

lemma isFiniteLe_spec {b : ℚ} {v : Option ℚ} (h : isFiniteLe b v = true) :
    ∃ a : ℚ, v = some a ∧ |a| ≤ b := by
  cases v with
  | none => simp [isFiniteLe] at h
  | some a => exact ⟨a, rfl, by simpa [isFiniteLe] using h⟩


/-- C6: on a nonempty series whose entries are all finite with absolute
value at most 1, the divisor is forced to exactly 1 and
`normalize_max_value` returns its input unchanged. -/
theorem normalize_max_value_within_range_noop (gaze_pos : Series ℚ) (hne : gaze_pos ≠ [])
    (hle : ∀ v ∈ entries gaze_pos, isFiniteLe 1 v = true) :
    normalize_max_value gaze_pos = some gaze_pos := by
  have hfin : ∀ v ∈ entries gaze_pos, v ≠ none := by
    intro v hv
    obtain ⟨a, rfl, _⟩ := isFiniteLe_spec (hle v hv)
    simp
  have hfinL : ∀ v ∈ (entries gaze_pos).map vabs, v ≠ none := by
    intro v hv
    obtain ⟨u, hu, rfl⟩ := List.mem_map.mp hv
    obtain ⟨a, rfl, _⟩ := isFiniteLe_spec (hle u hu)
    simp [vabs, vmap]
  have hneL : (entries gaze_pos).map vabs ≠ [] := by
    simpa using entries_ne_nil hne
  obtain ⟨m, hm, hmm, hbound⟩ := npMax_finite _ hneL hfinL
  have hm1 : m ≤ 1 := by
    obtain ⟨u, hu, hvu⟩ := List.mem_map.mp hmm
    obtain ⟨a, rfl, ha⟩ := isFiniteLe_spec (hle u hu)
    have : |a| = m := by simpa [vabs, vmap] using hvu
    exact this ▸ ha
  unfold normalize_max_value
  rw [hm]
  simp only [pyMaxOne, max_eq_right hm1]
  refine congrArg some ?_
  have : ∀ p ∈ gaze_pos, (vdiv p.1 (some 1), vdiv p.2 (some 1)) = p := by
    intro p hp
    obtain ⟨a, ha1, _⟩ := isFiniteLe_spec (hle p.1 (fst_mem_entries hp))
    obtain ⟨b, hb1, _⟩ := isFiniteLe_spec (hle p.2 (snd_mem_entries hp))
    rw [ha1, hb1]
    simp [vdiv, vmap2]
    exact Prod.ext (by simp [ha1]) (by simp [hb1])
  calc gaze_pos.map (fun p => (vdiv p.1 (some 1), vdiv p.2 (some 1)))
      = gaze_pos.map id := List.map_congr_left fun p hp => this p hp
    _ = gaze_pos := List.map_id _

/-- C7 fails on the code as stated unconditionally: on the input
[[2, NaN]] the finite entries have maximum absolute value 2 > 1, yet the
output is entirely NaN, so its maximum absolute value is neither exactly 1
nor at most 1 (no output entry has any finite absolute value at all). -/
theorem normalize_max_value_bounds_cex :
    normalize_max_value [(some 2, none)] = some [(none, none)]
    ∧ ∀ v ∈ (entries [((none : Option ℚ), (none : Option ℚ))]).map vabs, v = none := by
  constructor
  · rfl
  · decide

/-- C7 amended: for a NaN-free series with finite entry-wise absolute
maximum M, `normalize_max_value` succeeds; if M > 1 the output attains
absolute value exactly 1, every output entry is finite with absolute value
at most 1, and no entry is scaled up relative to the input. -/
theorem normalize_max_value_bounds (gaze_pos : Series ℚ) (M : ℚ) (out : Series ℚ)
    (hfin : ∀ v ∈ entries gaze_pos, v ≠ none)
    (hM : npMax ((entries gaze_pos).map vabs) = some (some M))
    (hout : normalize_max_value gaze_pos = some out) :
    (1 < M → some 1 ∈ (entries out).map vabs)
    ∧ (∀ v ∈ (entries out).map vabs, ∀ a : ℚ, v = some a → a ≤ 1)
    ∧ (∀ v ∈ entries out, v ≠ none)
    ∧ (∀ i : ℕ, ∀ a b : ℚ, (entries out)[i]? = some (some a) →
        (entries gaze_pos)[i]? = some (some b) → |a| ≤ |b|) := by
  -- facts about the maximum M
  have hfinL : ∀ v ∈ (entries gaze_pos).map vabs, v ≠ none := by
    intro v hv
    obtain ⟨u, hu, rfl⟩ := List.mem_map.mp hv
    obtain ⟨a, rfl⟩ := Option.ne_none_iff_exists'.mp (hfin u hu)
    simp [vabs, vmap]
  have hneL : (entries gaze_pos).map vabs ≠ [] := by
    intro hnil
    rw [hnil] at hM
    simp [npMax] at hM
  obtain ⟨m, hm, hmm, hbound⟩ := npMax_finite _ hneL hfinL
  have hmM : m = M := by
    rw [hm] at hM
    injection hM with hM2
    injection hM2
  rw [hmM] at hmm hbound
  have hMnonneg : 0 ≤ M := by
    obtain ⟨u, hu, hvu⟩ := List.mem_map.mp hmm
    obtain ⟨a, rfl⟩ := Option.ne_none_iff_exists'.mp (hfin u hu)
    have : |a| = M := by simpa [vabs, vmap] using hvu
    exact this ▸ abs_nonneg a
  -- the divisor
  set nf : ℚ := max M 1 with hnf
  have hnf1 : 1 ≤ nf := le_max_right M 1
  have hnfpos : 0 < nf := lt_of_lt_of_le one_pos hnf1
  have hMle : M ≤ nf := le_max_left M 1
  -- the output
  have hout2 : out = gaze_pos.map fun p => (vdiv p.1 (some nf), vdiv p.2 (some nf)) := by
    unfold normalize_max_value at hout
    rw [hM] at hout
    simp only [pyMaxOne] at hout
    exact (Option.some.inj hout).symm
  have hentries : entries out = (entries gaze_pos).map fun v => vdiv v (some nf) := by
    rw [hout2]
    exact entries_map (fun v => vdiv v (some nf)) gaze_pos
  refine ⟨?_, ?_, ?_, ?_⟩
  · -- attainment when M > 1
    intro h1M
    have hnfM : nf = M := max_eq_left h1M.le
    obtain ⟨u, hu, hvu⟩ := List.mem_map.mp hmm
    obtain ⟨a, rfl⟩ := Option.ne_none_iff_exists'.mp (hfin u hu)
    have haM : |a| = M := by simpa [vabs, vmap] using hvu
    have hmem2 : vdiv (some a) (some nf) ∈ entries out := by
      rw [hentries]
      exact List.mem_map_of_mem _ hu
    have hval : vabs (vdiv (some a) (some nf)) = some 1 := by
      simp only [vdiv, vmap2, vabs, vmap, hnfM]
      have hMne : M ≠ 0 := by positivity
      rw [abs_div, haM, abs_of_pos (lt_trans one_pos h1M), div_self hMne]
    rw [← hval]
    exact List.mem_map_of_mem _ hmem2
  · -- everything bounded by 1
    intro v hv a hva
    obtain ⟨w, hw, rfl⟩ := List.mem_map.mp hv
    rw [hentries] at hw
    obtain ⟨u, hu, rfl⟩ := List.mem_map.mp hw
    obtain ⟨b, rfl⟩ := Option.ne_none_iff_exists'.mp (hfin u hu)
    have hbM : |b| ≤ M := by
      refine hbound (vabs (some b)) (List.mem_map_of_mem _ hu) _ rfl
    simp only [vdiv, vmap2, vabs, vmap] at hva
    injection hva with hva2
    subst hva2
    rw [abs_div, abs_of_pos hnfpos]
    rw [div_le_one hnfpos]
    exact le_trans hbM hMle
  · -- outputs finite
    intro v hv
    rw [hentries] at hv
    obtain ⟨u, hu, rfl⟩ := List.mem_map.mp hv
    obtain ⟨b, rfl⟩ := Option.ne_none_iff_exists'.mp (hfin u hu)
    simp [vdiv, vmap2]
  · -- never scaled up
    intro i a b hia hib
    rw [hentries, List.getElem?_map, hib] at hia
    simp only [Option.map_some, vdiv, vmap2] at hia
    injection hia with hia2
    injection hia2 with hia3
    rw [← hia3, abs_div, abs_of_pos hnfpos]
    exact div_le_self (abs_nonneg b) hnf1

/-- Witness for C6 at the input [[0, 1]]. -/
theorem normalize_max_value_within_range_noop_witness :
    normalize_max_value [(some 0, some 1)] = some [(some 0, some 1)] :=
  normalize_max_value_within_range_noop _ (by decide) (by simp [entries, isFiniteLe])

/-- Witness for the amended C7 at the input [[2, 0]], whose output [[1, 0]]
attains absolute value 1. -/
theorem normalize_max_value_bounds_witness :
    some 1 ∈ (entries [((some 1 : Option ℚ), (some 0 : Option ℚ))]).map vabs :=
  (normalize_max_value_bounds [(some 2, some 0)] 2 [(some 1, some 0)] (by decide)
    (by norm_num [npMax, entries, vabs, vmap, vmax, vmap2, max_def, abs])
    (by norm_num [normalize_max_value, npMax, entries, vabs, vmap, vmax, vmap2,
      pyMaxOne, vdiv, max_def, abs])).1 (by norm_num)

/-- C5 fails on the code: `normalize_max_value` does not confine the effect
of a NaN entry to its own position.  With a NaN at position (0, 1), the
output at position (1, 0) is NaN, although with a finite value (0) in place
of that NaN the output at position (1, 0) is 1. -/
theorem nan_propagation_cex :
    normalize_max_value [(some 1, none), (some 2, some 0)]
      = some [(none, none), (none, none)]
    ∧ normalize_max_value [(some 1, some 0), (some 2, some 0)]
      = some [(some (1 / 2), some 0), (some 1, some 0)] := by
  constructor
  · rfl
  · norm_num [normalize_max_value, npMax, entries, vabs, vmap, vmax, vmap2, pyMaxOne,
      vdiv, max_def, abs]

/-- C10: on an empty series the `np.max` reduction has no identity and
raises, so `normalize_max_value` fails rather than returning a value. -/
theorem normalize_max_value_empty_raises : normalize_max_value ([] : Series ℚ) = none := rfl

/-! ## Per-position behavior and NaN propagation -/

lemma zipWith_getElem?_some {α β γ : Type} (f : α → β → γ) {l : List α} {l2 : List β}
    {i : ℕ} {a : α} {b : β} (ha : l[i]? = some a) (hb : l2[i]? = some b) :
    (List.zipWith f l l2)[i]? = some (f a b) := by
  induction l generalizing l2 i with
  | nil => simp at ha
  | cons x xs ih =>
    cases l2 with
    | nil => simp at hb
    | cons y ys =>
      cases i with
      | zero =>
        simp at ha hb
        simp [ha, hb]
      | succ n =>
        simp at ha hb ⊢
        exact ih ha hb

lemma elementwise_dist_props {α : Type}
    (F : (Option α × Option α) → Option α → (Option α × Option α))
    (H : ∀ s dv, (s.1 = none → (F s dv).1 = none) ∧ (s.2 = none → (F s dv).2 = none))
    (run : Series α → GazeNorm.Dist α → Option (Series α))
    (hrun : ∀ g d, run g d = match d with
      | .scalar dv => some (g.map fun p => F p dv)
      | .perSample ds => if ds.length = g.length then some (List.zipWith F g ds) else none) :
    ∀ (g : Series α) (d : GazeNorm.Dist α) (out : Series α), run g d = some out →
      out.length = g.length
      ∧ ∀ (i : ℕ) (p q : Option α × Option α), g[i]? = some p → out[i]? = some q →
          (p.1 = none → q.1 = none) ∧ (p.2 = none → q.2 = none)
          ∧ ∀ (g2 out2 : Series α) (q2 : Option α × Option α),
              run g2 d = some out2 → g2[i]? = some p → out2[i]? = some q2 → q2 = q := by
  intro g d out hout
  rw [hrun] at hout
  cases d with
  | scalar dv =>
    have houte : out = g.map fun p => F p dv := (Option.some.inj hout).symm
    constructor
    · simp [houte]
    · intro i p q hp hq
      rw [houte, List.getElem?_map, hp] at hq
      have hqe : q = F p dv := by
        simpa using hq.symm
      refine ⟨fun h1 => by rw [hqe]; exact (H p dv).1 h1,
              fun h2 => by rw [hqe]; exact (H p dv).2 h2, ?_⟩
      intro g2 out2 q2 hout2 hp2 hq2
      rw [hrun] at hout2
      have houte2 : out2 = g2.map fun p => F p dv := (Option.some.inj hout2).symm
      rw [houte2, List.getElem?_map, hp2] at hq2
      have : q2 = F p dv := by simpa using hq2.symm
      rw [this, hqe]
  | perSample ds =>
    have hout' : (if ds.length = g.length then some (List.zipWith F g ds) else none)
        = some out := hout
    by_cases hlen : ds.length = g.length
    · rw [if_pos hlen] at hout'
      have houte : out = List.zipWith F g ds := (Option.some.inj hout').symm
      constructor
      · simp [houte, List.length_zipWith, hlen]
      · intro i p q hp hq
        have hi : i < g.length := (List.getElem?_eq_some_iff.mp hp).1
        have hid : i < ds.length := by rw [hlen]; exact hi
        have hd : ds[i]? = some (ds.get ⟨i, hid⟩) :=
          List.getElem?_eq_some_iff.mpr ⟨hid, rfl⟩
        rw [houte, zipWith_getElem?_some F hp hd] at hq
        have hqe : q = F p (ds.get ⟨i, hid⟩) := by simpa using hq.symm
        refine ⟨fun h1 => by rw [hqe]; exact (H p _).1 h1,
                fun h2 => by rw [hqe]; exact (H p _).2 h2, ?_⟩
        intro g2 out2 q2 hout2 hp2 hq2
        rw [hrun] at hout2
        have hout2' : (if ds.length = g2.length then some (List.zipWith F g2 ds) else none)
            = some out2 := hout2
        by_cases hlen2 : ds.length = g2.length
        · rw [if_pos hlen2] at hout2'
          have houte2 : out2 = List.zipWith F g2 ds := (Option.some.inj hout2').symm
          rw [houte2, zipWith_getElem?_some F hp2 hd] at hq2
          have : q2 = F p (ds.get ⟨i, hid⟩) := by simpa using hq2.symm
          rw [this, hqe]
        · rw [if_neg hlen2] at hout2'
          exact absurd hout2' (by simp)
    · rw [if_neg hlen] at hout'
      exact absurd hout' (by simp)

lemma normalize_px_getElem? (g : Series ℚ) (s : ScreenProperties) (i : ℕ) :
    (normalize_px_to_screen g s)[i]? = g[i]?.map (fun p =>
      (vmap (fun v => v / (((max s.width_px s.height_px : ℤ) : ℚ) / 2))
         (vmap (fun x => x - (s.width_px : ℚ) / 2) p.1),
       vmap (fun v => v / (((max s.width_px s.height_px : ℤ) : ℚ) / 2))
         (vmap (fun y => y - (s.height_px : ℚ) / 2) p.2))) := by
  simp only [normalize_px_to_screen, mapBoth, mapCol0, mapCol1, List.map_map,
    List.getElem?_map]
  cases g[i]? <;> rfl

/-- C5 amended: the three per-element transforms (normalize_px_to_screen,
pixel_to_dva, normalize_dva_to_screen) propagate a NaN at position (i, axis)
to the same output position, and the output at any sample position depends
only on the input at that position (no other position is affected);
`normalize_max_value` also propagates the NaN but in addition blanks every
other position: any NaN in the input makes every output entry NaN. -/
theorem nan_propagation :
    (∀ (g : Series ℚ) (s : ScreenProperties),
      (normalize_px_to_screen g s).length = g.length
      ∧ ∀ (i : ℕ) (p q : Option ℚ × Option ℚ),
          g[i]? = some p → (normalize_px_to_screen g s)[i]? = some q →
          (p.1 = none → q.1 = none) ∧ (p.2 = none → q.2 = none)
          ∧ ∀ (g2 : Series ℚ) (q2 : Option ℚ × Option ℚ),
              g2[i]? = some p → (normalize_px_to_screen g2 s)[i]? = some q2 → q2 = q)
    ∧ (∀ (g : Series ℝ) (d : GazeNorm.Dist ℝ) (s : ScreenProperties) (c : Option (ℝ × ℝ))
        (out : Series ℝ), pixel_to_dva g d s c = some out →
        out.length = g.length
        ∧ ∀ (i : ℕ) (p q : Option ℝ × Option ℝ), g[i]? = some p → out[i]? = some q →
            (p.1 = none → q.1 = none) ∧ (p.2 = none → q.2 = none)
            ∧ ∀ (g2 out2 : Series ℝ) (q2 : Option ℝ × Option ℝ),
                pixel_to_dva g2 d s c = some out2 → g2[i]? = some p →
                out2[i]? = some q2 → q2 = q)
    ∧ (∀ (g : Series ℝ) (d : GazeNorm.Dist ℝ) (s : ScreenProperties) (out : Series ℝ),
        normalize_dva_to_screen g d s = some out →
        out.length = g.length
        ∧ ∀ (i : ℕ) (p q : Option ℝ × Option ℝ), g[i]? = some p → out[i]? = some q →
            (p.1 = none → q.1 = none) ∧ (p.2 = none → q.2 = none)
            ∧ ∀ (g2 out2 : Series ℝ) (q2 : Option ℝ × Option ℝ),
                normalize_dva_to_screen g2 d s = some out2 → g2[i]? = some p →
                out2[i]? = some q2 → q2 = q)
    ∧ (∀ (g : Series ℚ) (out : Series ℚ), normalize_max_value g = some out →
        ∀ (i : ℕ) (p : Option ℚ × Option ℚ), g[i]? = some p →
          (p.1 = none ∨ p.2 = none) →
          ∀ (j : ℕ) (q : Option ℚ × Option ℚ), out[j]? = some q → q = (none, none)) := by
  refine ⟨?_, ?_, ?_, ?_⟩
  · -- normalize_px_to_screen: elementwise, NaN per position, no cross-talk
    intro g s
    refine ⟨by simp [normalize_px_to_screen, mapBoth, mapCol0, mapCol1], ?_⟩
    intro i p q hp hq
    rw [normalize_px_getElem? g s i, hp] at hq
    have hqe : q = (vmap (fun v => v / (((max s.width_px s.height_px : ℤ) : ℚ) / 2))
         (vmap (fun x => x - (s.width_px : ℚ) / 2) p.1),
       vmap (fun v => v / (((max s.width_px s.height_px : ℤ) : ℚ) / 2))
         (vmap (fun y => y - (s.height_px : ℚ) / 2) p.2)) := by simpa using hq.symm
    refine ⟨fun h1 => by rw [hqe, h1]; rfl, fun h2 => by rw [hqe, h2]; rfl, ?_⟩
    intro g2 q2 hp2 hq2
    rw [normalize_px_getElem? g2 s i, hp2] at hq2
    have : q2 = (vmap (fun v => v / (((max s.width_px s.height_px : ℤ) : ℚ) / 2))
         (vmap (fun x => x - (s.width_px : ℚ) / 2) p.1),
       vmap (fun v => v / (((max s.width_px s.height_px : ℤ) : ℚ) / 2))
         (vmap (fun y => y - (s.height_px : ℚ) / 2) p.2)) := by simpa using hq2.symm
    rw [this, hqe]
  · -- pixel_to_dva: via its claim-side form
    intro g d s c out hout
    refine elementwise_dist_props
      (fun p dv =>
        (vmap2 (dvaFormula (c.getD ((s.width_px : ℝ) / 2, (s.height_px : ℝ) / 2)).1
          (s.px_per_inch : ℝ)) p.1 dv,
         vmap2 (dvaFormula (c.getD ((s.width_px : ℝ) / 2, (s.height_px : ℝ) / 2)).2
          (s.px_per_inch : ℝ)) p.2 dv))
      (fun p dv => by
        obtain ⟨x, y⟩ := p
        exact ⟨fun h1 => by subst h1; rfl, fun h2 => by subst h2; rfl⟩)
      (fun g d => pixel_to_dva g d s c)
      (fun g d => by
        show pixel_to_dva g d s c = _
        rw [pixel_to_dva_eq_claim]
        cases d <;> rfl)
      g d out hout
  · -- normalize_dva_to_screen: via its claim-side form
    intro g d s out hout
    refine elementwise_dist_props
      (fun p dv =>
        (vdiv p.1 (vmap (extentFormula s) dv), vdiv p.2 (vmap (extentFormula s) dv)))
      (fun p dv => by
        obtain ⟨x, y⟩ := p
        exact ⟨fun h1 => by subst h1; rfl, fun h2 => by subst h2; rfl⟩)
      (fun g d => normalize_dva_to_screen g d s)
      (fun g d => by
        show normalize_dva_to_screen g d s = _
        rw [normalize_dva_eq_claim]
        cases d <;> rfl)
      g d out hout
  · -- normalize_max_value: a NaN anywhere blanks every position
    intro g out hout i p hp hnan j q hq
    have hpmem : p ∈ g := List.mem_iff_getElem?.mpr ⟨i, hp⟩
    have hnone : none ∈ entries g := by
      rcases hnan with h1 | h1
      · exact h1 ▸ fst_mem_entries hpmem
      · exact h1 ▸ snd_mem_entries hpmem
    rw [normalize_max_value_all_nan hnone] at hout
    have houte : out = g.map fun _ => (none, none) := (Option.some.inj hout).symm
    rw [houte, List.getElem?_map] at hq
    cases hgj : g[j]? with
    | none => rw [hgj] at hq; simp at hq
    | some r =>
      rw [hgj] at hq
      simpa using hq.symm

/-- Witness for the amended C5: every hypothesis is discharged at concrete
inputs carrying a NaN -- the series [(NaN, NaN)] for the three per-element
transforms (with scalar distance 100 and a 1920 x 1080 screen where one is
needed), and [(1, NaN)] with its all-NaN output for `normalize_max_value`. -/
theorem nan_propagation_witness :
    ((none : Option ℚ), (none : Option ℚ)).1 = none
    ∧ ((none : Option ℝ), (none : Option ℝ)).1 = none
    ∧ ((none : Option ℝ), (none : Option ℝ)).2 = none
    ∧ ((none : Option ℚ), (none : Option ℚ)) = (none, none) := by
  refine ⟨?_, ?_, ?_, ?_⟩
  · exact ((nan_propagation.1 [(none, none)] ⟨1920, 1080, 90⟩).2 0 (none, none) (none, none)
      rfl rfl).1 rfl
  · exact ((nan_propagation.2.1 [(none, none)] (Dist.scalar (some 100)) ⟨1920, 1080, 90⟩ none
      [(none, none)] rfl).2 0 (none, none) (none, none) rfl rfl).1 rfl
  · exact ((nan_propagation.2.2.1 [(none, none)] (Dist.scalar (some 100)) ⟨1920, 1080, 90⟩
      [(none, none)] rfl).2 0 (none, none) (none, none) rfl rfl).2.1 rfl
  · exact nan_propagation.2.2.2 [(some 1, none)] [(none, none)] rfl 0 (some 1, none) rfl
      (Or.inr rfl) 0 (none, none) rfl

/-! ## Output ranges of the screen normalization -/

lemma foldl_vmax_somes (ql : List ℚ) (acc : ℚ) :
    (ql.map some).foldl vmax (some acc) = some (ql.foldl max acc) := by
  induction ql generalizing acc with
  | nil => rfl
  | cons x xs ih => simp [vmax, vmap2, ih]

lemma foldl_vmin_somes (ql : List ℚ) (acc : ℚ) :
    (ql.map some).foldl vmin (some acc) = some (ql.foldl min acc) := by
  induction ql generalizing acc with
  | nil => rfl
  | cons x xs ih => simp [vmin, vmap2, ih]

lemma foldl_max_map_mono {f : ℚ → ℚ} (hf : Monotone f) (l : List ℚ) (acc : ℚ) :
    (l.map f).foldl max (f acc) = f (l.foldl max acc) := by
  induction l generalizing acc with
  | nil => rfl
  | cons x xs ih =>
    simp only [List.map_cons, List.foldl_cons, ← hf.map_max, ih]

lemma foldl_min_map_mono {f : ℚ → ℚ} (hf : Monotone f) (l : List ℚ) (acc : ℚ) :
    (l.map f).foldl min (f acc) = f (l.foldl min acc) := by
  induction l generalizing acc with
  | nil => rfl
  | cons x xs ih =>
    simp only [List.map_cons, List.foldl_cons, ← hf.map_min, ih]

lemma le_foldl_max (a : ℚ) (l : List ℚ) : ∀ b ∈ a :: l, b ≤ l.foldl max a := by
  induction l generalizing a with
  | nil => simp
  | cons x xs ih =>
    intro b hb
    rcases List.mem_cons.mp hb with hb | hb
    · subst hb
      exact le_trans (le_max_left b x) (ih (max b x) _ (List.mem_cons_self _ _))
    · rcases List.mem_cons.mp hb with hb | hb
      · subst hb
        exact le_trans (le_max_right a b) (ih (max a b) _ (List.mem_cons_self _ _))
      · exact ih (max a x) b (List.mem_cons_of_mem _ hb)

lemma foldl_min_le (a : ℚ) (l : List ℚ) : ∀ b ∈ a :: l, l.foldl min a ≤ b := by
  induction l generalizing a with
  | nil => simp
  | cons x xs ih =>
    intro b hb
    rcases List.mem_cons.mp hb with hb | hb
    · subst hb
      exact le_trans (ih (min b x) _ (List.mem_cons_self _ _)) (min_le_left b x)
    · rcases List.mem_cons.mp hb with hb | hb
      · subst hb
        exact le_trans (ih (min a b) _ (List.mem_cons_self _ _)) (min_le_right a b)
      · exact ih (min a x) b (List.mem_cons_of_mem _ hb)

/-- C9 amended: for any screen geometry with positive dimensions and any
input series whose X column equals its Y column (with at least two distinct
values so the ranges are nonzero), both output columns of
`normalize_px_to_screen` have the same range r, so the ratio of the X range
to the Y range is r / r = 1 (both axes are scaled by the one shared factor
max(width, height)/2, which is what preserves the aspect ratio), not
height/width or width/height. -/
theorem aspect_ratio_ranges (screen : ScreenProperties) (l : List ℚ)
    (hw : 0 < screen.width_px) (hh : 0 < screen.height_px)
    (hab : ∃ a ∈ l, ∃ b ∈ l, a ≠ b) :
    ∃ r : ℚ,
      listRange (col0 (normalize_px_to_screen (l.map fun v => (some v, some v)) screen))
        = some (some r)
      ∧ listRange (col1 (normalize_px_to_screen (l.map fun v => (some v, some v)) screen))
        = some (some r)
      ∧ 0 < r ∧ r / r = 1 := by
  obtain ⟨a0, ha0, b0, hb0, hab0⟩ := hab
  obtain ⟨a, l, rfl⟩ : ∃ a l2, l = a :: l2 := by
    cases l with
    | nil => simp at ha0
    | cons a l2 => exact ⟨a, l2, rfl⟩
  set nf : ℚ := ((max screen.width_px screen.height_px : ℤ) : ℚ) / 2 with hnf
  have hnfpos : 0 < nf := by
    rw [hnf]
    have : (0 : ℤ) < max screen.width_px screen.height_px := lt_max_of_lt_left hw
    positivity
  set f0 : ℚ → ℚ := fun v => (v - (screen.width_px : ℚ) / 2) / nf with hf0
  set f1 : ℚ → ℚ := fun v => (v - (screen.height_px : ℚ) / 2) / nf with hf1
  have hf0m : Monotone f0 := by
    intro u v huv
    rw [hf0]
    exact div_le_div_of_nonneg_right (by exact sub_le_sub_right huv _) hnfpos.le
  have hf1m : Monotone f1 := by
    intro u v huv
    rw [hf1]
    exact div_le_div_of_nonneg_right (by exact sub_le_sub_right huv _) hnfpos.le
  -- column extraction
  have hcol0 : col0 (normalize_px_to_screen ((a :: l).map fun v => (some v, some v)) screen)
      = ((a :: l).map f0).map some := by
    simp only [normalize_px_to_screen, mapBoth, mapCol0, mapCol1, col0, List.map_map]
    refine List.map_congr_left fun v _ => ?_
    rfl
  have hcol1 : col1 (normalize_px_to_screen ((a :: l).map fun v => (some v, some v)) screen)
      = ((a :: l).map f1).map some := by
    simp only [normalize_px_to_screen, mapBoth, mapCol0, mapCol1, col1, List.map_map]
    refine List.map_congr_left fun v _ => ?_
    rfl
  -- ranges
  set M : ℚ := l.foldl max a with hM
  set m : ℚ := l.foldl min a with hm
  have hrange0 : listRange (((a :: l).map f0).map some) = some (some (f0 M - f0 m)) := by
    simp only [List.map_cons, listRange, npMax, npMin, foldl_vmax_somes, foldl_vmin_somes,
      foldl_max_map_mono hf0m, foldl_min_map_mono hf0m, vsub, vmap2, hM, hm]
  have hrange1 : listRange (((a :: l).map f1).map some) = some (some (f1 M - f1 m)) := by
    simp only [List.map_cons, listRange, npMax, npMin, foldl_vmax_somes, foldl_vmin_somes,
      foldl_max_map_mono hf1m, foldl_min_map_mono hf1m, vsub, vmap2, hM, hm]
  have hd0 : f0 M - f0 m = (M - m) / nf := by
    rw [hf0]
    rw [div_sub_div_same]
    ring_nf
  have hd1 : f1 M - f1 m = (M - m) / nf := by
    rw [hf1]
    rw [div_sub_div_same]
    ring_nf
  have hmM : m < M := by
    rcases lt_or_gt_of_ne hab0 with hlt | hgt
    · exact lt_of_le_of_lt (foldl_min_le a l a0 ha0)
        (lt_of_lt_of_le hlt (le_foldl_max a l b0 hb0))
    · exact lt_of_le_of_lt (foldl_min_le a l b0 hb0)
        (lt_of_lt_of_le hgt (le_foldl_max a l a0 ha0))
  have hrpos : 0 < (M - m) / nf := div_pos (sub_pos.mpr hmM) hnfpos
  refine ⟨(M - m) / nf, ?_, ?_, hrpos, div_self (ne_of_gt hrpos)⟩
  · rw [hcol0, hrange0, hd0]
  · rw [hcol1, hrange1, hd1]

/-- C9 fails on the code: on a 1920 x 1080 screen with the equal-column
input [(0, 0), (100, 100)], both output ranges are 5/48, so their ratio is
1, which is neither 1080/1920 nor 1920/1080. -/
theorem aspect_ratio_cex :
    listRange (col0 (normalize_px_to_screen [(some 0, some 0), (some 100, some 100)]
        ⟨1920, 1080, 90⟩)) = some (some (5 / 48))
    ∧ listRange (col1 (normalize_px_to_screen [(some 0, some 0), (some 100, some 100)]
        ⟨1920, 1080, 90⟩)) = some (some (5 / 48))
    ∧ ¬((5 / 48 : ℚ) / (5 / 48) = 1080 / 1920 ∨ (5 / 48 : ℚ) / (5 / 48) = 1920 / 1080) := by
  refine ⟨?_, ?_, ?_⟩
  · norm_num [listRange, col0, col1, normalize_px_to_screen, mapBoth, mapCol0, mapCol1,
      vmap, npMax, npMin, vmax, vmin, vsub, vmap2, max_def, min_def]
  · norm_num [listRange, col0, col1, normalize_px_to_screen, mapBoth, mapCol0, mapCol1,
      vmap, npMax, npMin, vmax, vmin, vsub, vmap2, max_def, min_def]
  · norm_num

/-- Witness for the amended C9 on a 1920 x 1080 screen with the equal-column
input built from [0, 100]. -/
theorem aspect_ratio_ranges_witness :
    ∃ r : ℚ,
      listRange (col0 (normalize_px_to_screen ([0, 100].map fun v => ((some v : Option ℚ), some v))
        ⟨1920, 1080, 90⟩)) = some (some r)
      ∧ listRange (col1 (normalize_px_to_screen ([0, 100].map fun v => ((some v : Option ℚ), some v))
        ⟨1920, 1080, 90⟩)) = some (some r)
      ∧ 0 < r ∧ r / r = 1 :=
  aspect_ratio_ranges ⟨1920, 1080, 90⟩ [0, 100] (by decide) (by decide)
    ⟨0, by simp, 100, by simp, by norm_num⟩


/-! ## Memory model for the mutation claims

Python numpy arrays are reference values: an in-place statement writes
through whichever buffer the local name currently refers to.  The model
below tracks the caller's buffer and the buffers the function allocates;
`np.copy` redirects the local name to a fresh buffer, so the subsequent
in-place statements are writes to that buffer.  Each `_mem` function mirrors
its pure embedding statement by statement and returns the final memory and
the reference held by the returned expression (`none` when the call raises).
-/

/-- A reference to an array buffer: the caller's argument buffer, or the
n-th buffer allocated during the call. -/
inductive Ref where
  | callerArr
  | alloc (n : ℕ)
deriving DecidableEq

/-- The memory visible to one call: the caller's buffer and the buffers
allocated so far. -/
structure Mem (α : Type) where
  callerBuf : Series α
  allocs : List (Series α)

/-- Read the array a reference points to (`none` for a dangling index). -/
def readRef {α : Type} (m : Mem α) : Ref → Option (Series α)
  | .callerArr => some m.callerBuf
  | .alloc n => m.allocs[n]?

/-- Read an array, defaulting a dangling reference to the empty array. -/
def readArr {α : Type} (m : Mem α) (r : Ref) : Series α := (readRef m r).getD []

/-- Write through a reference: an in-place numpy statement on the buffer
the local name currently denotes. -/
def writeRef {α : Type} (m : Mem α) (r : Ref) (v : Series α) : Mem α :=
  match r with
  | .callerArr => { m with callerBuf := v }
  | .alloc n => { m with allocs := m.allocs.set n v }

/-- Allocate a fresh buffer holding `v` and return a reference to it
(`np.copy`, or any numpy operation that produces a new array). -/
def allocNew {α : Type} (m : Mem α) (v : Series α) : Mem α × Ref :=
  ({ m with allocs := m.allocs ++ [v] }, .alloc m.allocs.length)

/-- Statement-by-statement memory version of `normalize_px_to_screen`:
line 19 copies the input into a fresh buffer, lines 22, 23 and 27 write to
that buffer in place. -/
def normalize_px_to_screen_mem (inp : Series ℚ) (screen : ScreenProperties) :
    Mem ℚ × Option Ref :=
  let m0 : Mem ℚ := ⟨inp, []⟩
  let r0 : Ref := .callerArr
  let a1 := allocNew m0 (readArr m0 r0)
  let m1 := a1.1
  let r1 := a1.2
  let m2 := writeRef m1 r1 (mapCol0 (fun x => x - (screen.width_px : ℚ) / 2) (readArr m1 r1))
  let m3 := writeRef m2 r1 (mapCol1 (fun y => y - (screen.height_px : ℚ) / 2) (readArr m2 r1))
  let m4 := writeRef m3 r1
    (mapBoth (fun v => v / (((max screen.width_px screen.height_px : ℤ) : ℚ) / 2))
      (readArr m3 r1))
  (m4, some r1)

/-- Memory version of `normalize_max_value`: the reduction on line 38 only
reads the input (raising on an empty series), and the division on line 40
allocates the returned array; nothing is written in place. -/
def normalize_max_value_mem (inp : Series ℚ) : Mem ℚ × Option Ref :=
  let m0 : Mem ℚ := ⟨inp, []⟩
  let r0 : Ref := .callerArr
  match npMax ((entries (readArr m0 r0)).map vabs) with
  | none => (m0, none)
  | some norm_factor0 =>
    let norm_factor := pyMaxOne norm_factor0
    let a1 := allocNew m0
      ((readArr m0 r0).map fun p => (vdiv p.1 norm_factor, vdiv p.2 norm_factor))
    (a1.1, some a1.2)

/-- Memory version of `pixel_to_dva`: line 59 copies the input into a fresh
buffer; lines 64, 65, 68, 71 and 72 write to that buffer in place (71 and
72 raise on a broadcast mismatch); `np.degrees` on line 74 allocates the
returned array. -/
noncomputable def pixel_to_dva_mem (inp : Series ℝ) (mm_to_target : GazeNorm.Dist ℝ)
    (screen : ScreenProperties) (gaze_center : Option (ℝ × ℝ)) : Mem ℝ × Option Ref :=
  let m0 : Mem ℝ := ⟨inp, []⟩
  let r0 : Ref := .callerArr
  let c := match gaze_center with
    | some c => c
    | none => ((screen.width_px : ℝ) / 2, (screen.height_px : ℝ) / 2)
  let a1 := allocNew m0 (readArr m0 r0)
  let m1 := a1.1
  let r1 := a1.2
  let m2 := writeRef m1 r1 (mapCol0 (fun x => x - c.1) (readArr m1 r1))
  let m3 := writeRef m2 r1 (mapCol1 (fun y => y - c.2) (readArr m2 r1))
  let m4 := writeRef m3 r1
    (mapBoth (fun v => v * (25.4 / (screen.px_per_inch : ℝ))) (readArr m3 r1))
  match arctanCol0 (readArr m4 r1) mm_to_target with
  | none => (m4, none)
  | some g4 =>
    let m5 := writeRef m4 r1 g4
    match arctanCol1 (readArr m5 r1) mm_to_target with
    | none => (m5, none)
    | some g5 =>
      let m6 := writeRef m5 r1 g5
      let a2 := allocNew m6 (mapBoth degrees (readArr m6 r1))
      (a2.1, some a2.2)

/-- Memory version of `normalize_dva_to_screen`: the divisor is computed
from scalars, and the division on line 97 allocates the returned array
(raising on a broadcast mismatch); nothing is written in place. -/
noncomputable def normalize_dva_to_screen_mem (inp : Series ℝ) (mm_to_target : GazeNorm.Dist ℝ)
    (screen : ScreenProperties) : Mem ℝ × Option Ref :=
  let m0 : Mem ℝ := ⟨inp, []⟩
  let r0 : Ref := .callerArr
  let norm_factor_px : ℝ := ((max screen.width_px screen.height_px : ℤ) : ℝ) / 2
  let norm_factor_mm : ℝ := norm_factor_px * (25.4 / (screen.px_per_inch : ℝ))
  match mm_to_target with
  | .scalar d =>
    let norm_factor := vmap degrees (vmap2 arctan2 (some norm_factor_mm) d)
    let a1 := allocNew m0
      ((readArr m0 r0).map fun p => (vdiv p.1 norm_factor, vdiv p.2 norm_factor))
    (a1.1, some a1.2)
  | .perSample ds =>
    let norm_factors := ds.map fun d => vmap degrees (vmap2 arctan2 (some norm_factor_mm) d)
    if ds.length = (readArr m0 r0).length then
      let a1 := allocNew m0
        (List.zipWith (fun p nf => (vdiv p.1 nf, vdiv p.2 nf)) (readArr m0 r0) norm_factors)
      (a1.1, some a1.2)
    else (m0, none)


lemma pixel_mem_match_spec (g : Series ℝ) (d : GazeNorm.Dist ℝ)
    (mem_result : Mem ℝ × Option Ref) (pure_result : Option (Series ℝ)) (G3 : Series ℝ)
    (hmem : mem_result = match arctanCol0 G3 d with
      | none => (⟨g, [G3]⟩, none)
      | some g4 =>
        match arctanCol1 g4 d with
        | none => (⟨g, [g4]⟩, none)
        | some g5 => (⟨g, [g5, mapBoth degrees g5]⟩, some (Ref.alloc 1)))
    (hpure : pure_result = match arctanCol0 G3 d with
      | none => none
      | some g4 =>
        match arctanCol1 g4 d with
        | none => none
        | some g5 => some (mapBoth degrees g5)) :
    mem_result.1.callerBuf = g
    ∧ (mem_result.2.map (readArr mem_result.1)) = pure_result
    ∧ ∀ r, mem_result.2 = some r → r ≠ Ref.callerArr := by
  subst hmem hpure
  cases arctanCol0 G3 d with
  | none => exact ⟨rfl, rfl, by intro r hr; simp at hr⟩
  | some g4 =>
    dsimp only
    cases arctanCol1 g4 d with
    | none => exact ⟨rfl, rfl, by intro r hr; simp at hr⟩
    | some g5 =>
      refine ⟨rfl, rfl, ?_⟩
      intro r hr
      have h1 : Ref.alloc 1 = r := Option.some.inj hr
      rw [← h1]
      simp

/-- C8: no transformation function mutates its input.  For each of the four
functions, after the call the caller's buffer holds exactly the values it
held before (even when the call raises), the returned reference is a buffer
allocated during the call (never the caller's buffer), and the array it
holds is the function's pure result. -/
theorem no_input_mutation :
    (∀ (g : Series ℚ) (s : ScreenProperties),
      (normalize_px_to_screen_mem g s).1.callerBuf = g
      ∧ (normalize_px_to_screen_mem g s).2 = some (Ref.alloc 0)
      ∧ Ref.alloc 0 ≠ Ref.callerArr
      ∧ readRef (normalize_px_to_screen_mem g s).1 (Ref.alloc 0)
          = some (normalize_px_to_screen g s))
    ∧ (∀ (g : Series ℚ),
        (normalize_max_value_mem g).1.callerBuf = g
        ∧ ((normalize_max_value_mem g).2.map (readArr (normalize_max_value_mem g).1))
            = normalize_max_value g
        ∧ ∀ r, (normalize_max_value_mem g).2 = some r → r ≠ Ref.callerArr)
    ∧ (∀ (g : Series ℝ) (d : GazeNorm.Dist ℝ) (s : ScreenProperties) (c : Option (ℝ × ℝ)),
        (pixel_to_dva_mem g d s c).1.callerBuf = g
        ∧ ((pixel_to_dva_mem g d s c).2.map (readArr (pixel_to_dva_mem g d s c).1))
            = pixel_to_dva g d s c
        ∧ ∀ r, (pixel_to_dva_mem g d s c).2 = some r → r ≠ Ref.callerArr)
    ∧ (∀ (g : Series ℝ) (d : GazeNorm.Dist ℝ) (s : ScreenProperties),
        (normalize_dva_to_screen_mem g d s).1.callerBuf = g
        ∧ ((normalize_dva_to_screen_mem g d s).2.map
            (readArr (normalize_dva_to_screen_mem g d s).1))
            = normalize_dva_to_screen g d s
        ∧ ∀ r, (normalize_dva_to_screen_mem g d s).2 = some r → r ≠ Ref.callerArr) := by
  refine ⟨?_, ?_, ?_, ?_⟩
  · intro g s
    exact ⟨rfl, rfl, by decide, rfl⟩
  · intro g
    have key : normalize_max_value_mem g = match npMax ((entries g).map vabs) with
      | none => (⟨g, []⟩, none)
      | some nf0 =>
        (⟨g, [g.map fun p => (vdiv p.1 (pyMaxOne nf0), vdiv p.2 (pyMaxOne nf0))]⟩,
          some (Ref.alloc 0)) := rfl
    rw [key]
    unfold normalize_max_value
    cases npMax ((entries g).map vabs) with
    | none => exact ⟨rfl, rfl, by intro r hr; simp at hr⟩
    | some nf0 =>
      dsimp only
      refine ⟨rfl, rfl, ?_⟩
      intro r hr
      have h0 : Ref.alloc 0 = r := Option.some.inj hr
      rw [← h0]
      simp
  · intro g d s c
    cases c with
    | none =>
      exact pixel_mem_match_spec g d _ _
        (mapBoth (fun v => v * (25.4 / (s.px_per_inch : ℝ)))
          (mapCol1 (fun y => y - (s.height_px : ℝ) / 2)
            (mapCol0 (fun x => x - (s.width_px : ℝ) / 2) g))) rfl rfl
    | some c0 =>
      exact pixel_mem_match_spec g d _ _
        (mapBoth (fun v => v * (25.4 / (s.px_per_inch : ℝ)))
          (mapCol1 (fun y => y - c0.2) (mapCol0 (fun x => x - c0.1) g))) rfl rfl
  · intro g d s
    cases d with
    | scalar dv =>
      refine ⟨rfl, rfl, ?_⟩
      intro r hr
      have h0 : Ref.alloc 0 = r := Option.some.inj hr
      rw [← h0]
      simp
    | perSample ds =>
      have key : normalize_dva_to_screen_mem g (GazeNorm.Dist.perSample ds) s
          = if ds.length = g.length then
              (⟨g, [List.zipWith (fun p nf => (vdiv p.1 nf, vdiv p.2 nf)) g
                (ds.map fun dd => vmap degrees (vmap2 arctan2
                  (some (((max s.width_px s.height_px : ℤ) : ℝ) / 2
                    * (25.4 / (s.px_per_inch : ℝ)))) dd))]⟩, some (Ref.alloc 0))
            else (⟨g, []⟩, none) := rfl
      have key2 : normalize_dva_to_screen g (GazeNorm.Dist.perSample ds) s
          = if ds.length = g.length then
              some (List.zipWith (fun p nf => (vdiv p.1 nf, vdiv p.2 nf)) g
                (ds.map fun dd => vmap degrees (vmap2 arctan2
                  (some (((max s.width_px s.height_px : ℤ) : ℝ) / 2
                    * (25.4 / (s.px_per_inch : ℝ)))) dd)))
            else none := rfl
      rw [key, key2]
      by_cases hlen : ds.length = g.length
      · rw [if_pos hlen, if_pos hlen]
        refine ⟨rfl, rfl, ?_⟩
        intro r hr
        have h0 : Ref.alloc 0 = r := Option.some.inj hr
        rw [← h0]
        simp
      · rw [if_neg hlen, if_neg hlen]
        exact ⟨rfl, rfl, by intro r hr; simp at hr⟩

/-- Witness for C8 at concrete inputs: the caller's buffer of
`normalize_px_to_screen_mem` is unchanged on [(5, 7)], and the references
returned by `normalize_max_value_mem` on [(1, NaN)], `pixel_to_dva_mem` and
`normalize_dva_to_screen_mem` on [(NaN, NaN)] (scalar distance 100) are all
allocated buffers distinct from the caller's. -/
theorem no_input_mutation_witness :
    (normalize_px_to_screen_mem [(some 5, some 7)] ⟨1920, 1080, 90⟩).1.callerBuf
      = [(some 5, some 7)]
    ∧ Ref.alloc 0 ≠ Ref.callerArr
    ∧ Ref.alloc 1 ≠ Ref.callerArr
    ∧ (normalize_dva_to_screen_mem [(none, none)] (Dist.scalar (some 100))
        ⟨1920, 1080, 90⟩).1.callerBuf = [(none, none)] :=
  ⟨(no_input_mutation.1 [(some 5, some 7)] ⟨1920, 1080, 90⟩).1,
   (no_input_mutation.2.1 [(some 1, none)]).2.2 (Ref.alloc 0) rfl,
   (no_input_mutation.2.2.1 [(none, none)] (Dist.scalar (some 100)) ⟨1920, 1080, 90⟩
      none).2.2 (Ref.alloc 1) rfl,
   (no_input_mutation.2.2.2 [(none, none)] (Dist.scalar (some 100)) ⟨1920, 1080, 90⟩).1⟩

end GazeNorm
